import Mathlib

/-!
Verification of the istore LSH index core: the `bitvector` package and the
`lsh` package (indexer, paged storage, search).

Shallow embedding conventions.  Machine integers are modelled as `Nat`
(bytes are values below 256, `uint64` item ids are plain `Nat`, page links
are `Int` with the sentinel -1, as in the source).  Go slices are Lean
lists; for the page slice of `Storage` we additionally keep the capacity of
its backing array, because `Storage.Add` holds a `*Page` obtained from the
page iterator across the `append` performed by `allocatePage`: when the
append exhausts the capacity the Go runtime moves the backing array, the
held pointer goes stale, and the subsequent `page.Link` write is lost.
For this element size (a `Page` is 8192 bytes) the runtime allocates the
first element with capacity exactly 1 and doubles afterwards, which is the
growth policy modelled in `goAppend`.  Operations that can fault at run
time (out-of-range slice indexing, nil-pointer dereference) are modelled
as `Option`-valued functions, `none` standing for the fault.
-/

/-- A bit vector: declared bit length `size` and packed little-endian byte
buffer `bits` (bit `i` lives in byte `i >>> 3` at mask `1 <<< (i &&& 7)`).
Mirrors `type BitVector struct` of bitvector/bitvector.go. -/
structure BitVector where
  size : Nat
  bits : List Nat
  deriving DecidableEq

namespace BitVector

/-- Mirrors `New`: the buffer is `size >> 3` bytes, i.e. the floor of
`size / 8` (while `byteSize` below rounds up). -/
def new (size : Nat) : BitVector :=
  ⟨size, List.replicate (size >>> 3) 0⟩

/-- Mirrors `Set`: `bv.bits[i>>3] |= 1 << (i&7)`; `none` when the byte
index is out of range of the buffer (a Go runtime panic). -/
def set (bv : BitVector) (i : Nat) : Option BitVector :=
  if i >>> 3 < bv.bits.length then
    some { bv with
      bits := bv.bits.set (i >>> 3) ((bv.bits.getD (i >>> 3) 0) ||| (1 <<< (i &&& 7))) }
  else none

/-- Mirrors `Unset`: `bv.bits[i>>3] &= ^(1 << (i&7))`; the complement of a
`uint8` mask is `255 ^^^ mask`. -/
def unset (bv : BitVector) (i : Nat) : Option BitVector :=
  if i >>> 3 < bv.bits.length then
    some { bv with
      bits := bv.bits.set (i >>> 3) ((bv.bits.getD (i >>> 3) 0) &&& (255 ^^^ (1 <<< (i &&& 7)))) }
  else none

/-- Mirrors `Get`: `(bv.bits[i>>3] & (1 << (i&7))) != 0`. -/
def get (bv : BitVector) (i : Nat) : Option Bool :=
  if i >>> 3 < bv.bits.length then
    some (((bv.bits.getD (i >>> 3) 0) &&& (1 <<< (i &&& 7))) != 0)
  else none

/-- Mirrors `ByteSize`: `(size+7) >> 3`, the ceiling of `size / 8`. -/
def byteSize (bv : BitVector) : Nat :=
  (bv.size + 7) >>> 3

/-- Modelled from the spec: the 256-entry `popcnt` lookup table of the
bitvector package is in a file that is not under src/; per the spec it maps
a byte to its population count. -/
def popcnt (b : Nat) : Nat :=
  ((List.range 8).filter (fun j => b.testBit j)).length

/-- Mirrors `Hamming`: iterates `i` over `x.ByteSize()` (the FIRST
argument's byte size) summing `popcnt[x.bits[i] ^ y.bits[i]]`; `none` when
either buffer is shorter than that (a Go index-out-of-range panic). -/
def hamming (x y : BitVector) : Option Nat :=
  if byteSize x ≤ x.bits.length ∧ byteSize x ≤ y.bits.length then
    some (((List.range (byteSize x)).map
      (fun i => popcnt ((x.bits.getD i 0) ^^^ (y.bits.getD i 0)))).sum)
  else none

/-- The character-scanning stage of `Scan`: '1' and '0' contribute a bit,
' ' is skipped, anything else is the "BitVector parse error". -/
def parseBits : List Char → Option (List Bool)
  | [] => some []
  | c :: rest =>
    if c = '1' then (parseBits rest).map (true :: ·)
    else if c = '0' then (parseBits rest).map (false :: ·)
    else if c = ' ' then parseBits rest
    else none

/-- The bit-setting loop of `Scan`: `for i, b := range bits, if b, bv.Set(i)`. -/
def setBits : BitVector → Nat → List Bool → Option BitVector
  | bv, _, [] => some bv
  | bv, i, b :: rest =>
    if b then (set bv i).bind (fun bv2 => setBits bv2 (i + 1) rest)
    else setBits bv (i + 1) rest

/-- Mirrors `Scan`: parse the characters, allocate with `New` over the bit
count, then set the one bits.  `none` covers both the documented parse
error and the runtime panic inside `Set`. -/
def scan (s : List Char) : Option BitVector :=
  (parseBits s).bind (fun bs => setBits (new bs.length) 0 bs)

/-- Mirrors `String`: renders bit `i` for `i < size` as '0'/'1', with a
space before every eighth bit; `none` when some `Get` faults, i.e. when the
buffer is shorter than `byteSize` bytes. -/
def render (bv : BitVector) : Option (List Char) :=
  if byteSize bv ≤ bv.bits.length then
    some ((List.range bv.size).flatMap (fun i =>
      (if 0 < i ∧ i % 8 = 0 then [' '] else []) ++
      [if ((bv.bits.getD (i >>> 3) 0) &&& (1 <<< (i &&& 7))) != 0 then '1' else '0']))
  else none

/-- Modelled from the spec: `FromUint32` of the bitvector package is not
under src/.  Per the spec data model, a bucket key is the bit vector's
first bits in little-endian byte order and the packed buffer of a
`size`-bit vector has `ceil(size/8)` bytes. -/
def fromUint32 (k : Nat) (size : Nat) : BitVector :=
  ⟨size, (List.range ((size + 7) >>> 3)).map (fun i => (k >>> (8 * i)) &&& 255)⟩

/-- The number of bit positions below `8 * byteSize x` at which `x` and `y`
differ (reading each buffer little-endian, as `Get` does). -/
def countDiff (x y : BitVector) : Nat :=
  ((List.range (8 * byteSize x)).filter (fun i =>
    (x.bits.getD (i >>> 3) 0).testBit (i &&& 7) != (y.bits.getD (i >>> 3) 0).testBit (i &&& 7))).length

/-- The all-set vector of length `n`: `ceil(n/8)` bytes, each holding its
valid bits set and the unused high bits of the final byte zero. -/
def allOnes (n : Nat) : BitVector :=
  ⟨n, (List.range ((n + 7) >>> 3)).map (fun i => 2 ^ (min 8 (n - 8 * i)) - 1)⟩

/-- The all-clear vector of length `n` with a `ceil(n/8)`-byte buffer. -/
def allZero (n : Nat) : BitVector :=
  ⟨n, List.replicate ((n + 7) >>> 3) 0⟩

end BitVector

/-- A storage page.  The source holds a fixed `[1023]uint64` array together
with a fill count `nitems`; observably (`Gets`, `CountItems`, `Add`) that
is the list of the first `nitems` stored ids, modelled here as `items`,
with `Full` meaning `items.length = 1023`.  `link` is the position of the
next page of the chain, or -1. -/
structure Page where
  items : List Nat
  link : Int
  deriving DecidableEq

/-- The page collection.  `pages` models the `pages []Page` slice; `cap`
is the capacity of its backing array, which decides whether an `append`
moves the array (the unused `hash []int32` field of the source is
omitted). -/
structure Storage where
  pages : List Page
  cap : Nat
  deriving DecidableEq

/-- Go's `append(pages, p)` for this element size: in place when one more
element still fits the capacity, otherwise into a fresh backing array of
doubled capacity (capacity 1 when starting from an empty slice).  The
boolean records whether the backing array moved. -/
def goAppend (pages : List Page) (cap : Nat) (p : Page) : List Page × Nat × Bool :=
  if pages.length + 1 ≤ cap then (pages ++ [p], cap, false)
  else (pages ++ [p], (if cap = 0 then 1 else 2 * cap), true)

/-- Mirrors `Storage.allocatePage`: append a fresh page (initialised by
`Init` to link -1) and return its position. -/
def allocatePage (s : Storage) : Storage × Nat :=
  let r := goAppend s.pages s.cap { items := [], link := -1 }
  (⟨r.1, r.2.1⟩, s.pages.length)

/-- The fuel-indexed page-chain walk of `pageIter.next`: stop at the -1
sentinel, fault (`none`) on a link outside the page collection — the
`panic(iter.nextno)` branch — and `none` as well if the fuel runs out,
which models a non-terminating cyclic chain. -/
def chainAux (pages : List Page) : Nat → Int → Option (List Nat)
  | 0, next => if next = -1 then some [] else none
  | fuel + 1, next =>
    if next = -1 then some []
    else if 0 ≤ next ∧ next.toNat < pages.length then
      (chainAux pages fuel (pages.getD next.toNat { items := [], link := -1 }).link).map
        (next.toNat :: ·)
    else none

/-- The list of page positions visited by a page iterator started at
`pageno`.  A fuel of one more than the page count is enough for every
acyclic chain. -/
def pageChain (s : Storage) (pageno : Int) : Option (List Nat) :=
  chainAux s.pages (s.pages.length + 1) pageno

/-- Mirrors `Page.Add`: writes `items[nitems]` and increments the count;
`none` when the page is already full (index 1023 of a `[1023]uint64` array
is a Go runtime panic). -/
def pageAdd (p : Page) (itemid : Nat) : Option Page :=
  if p.items.length < 1023 then some { p with items := p.items ++ [itemid] }
  else none

/-- Mirrors `Storage.Add`: walk the chain from `pageno` to the tail page;
if the tail is full, allocate a new page, write the old tail's link
through the pointer held from before the allocation (lost when the append
moved the backing array) and append the item to the new page, otherwise
append to the tail.  `none` models the nil-dereference when the chain is
empty and faults propagated from the walk. -/
def storageAdd (s : Storage) (itemid : Nat) (pageno : Nat) : Option (Storage × Nat) :=
  (pageChain s (Int.ofNat pageno)).bind (fun l =>
    (l.getLast?).bind (fun t =>
      let pg := s.pages.getD t { items := [], link := -1 }
      if pg.items.length = 1023 then
        let n := s.pages.length
        let r := goAppend s.pages s.cap { items := [], link := -1 }
        let pages2 := if r.2.2 then r.1 else r.1.set t { pg with link := Int.ofNat n }
        (pageAdd { items := [], link := -1 } itemid).map
          (fun pg2 => (⟨pages2.set n pg2, r.2.1⟩, n))
      else
        (pageAdd pg itemid).map (fun pg2 => (⟨s.pages.set t pg2, s.cap⟩, t))))

/-- The indexer.  The `distance Distance` strategy field of the source is
the angular hasher; it enters only through the bucket key a vector hashes
to, so insertion and search below take that key directly (the hyperplanes
it would consult are kept, as built by the construction). -/
structure Indexer where
  seed : Int
  bitsize : Nat
  vecsize : Nat
  hyperplane : List (List Int)
  storage : Storage
  lookup : List (Nat × Nat)
  deriving DecidableEq

/-- Reading the `lookup map[uint32]int` table, modelled as an association
list. -/
def lookupFind : List (Nat × Nat) → Nat → Option Nat
  | [], _ => none
  | (k, v) :: rest, key => if k = key then some v else lookupFind rest key

/-- Modelled from the spec: `NewRandomVectorGen` is not under src/; per the
spec it deterministically yields a sequence of `vecsize`-dimensional
vectors from the seed (the numeric values themselves never matter to the
index, only the dimension and determinism do). -/
def genVec (seed : Int) (vecsize : Nat) (i : Nat) : List Int :=
  (List.range vecsize).map (fun j => seed + Int.ofNat (i * vecsize + j))

/-- Mirrors `NewIndexer`: `none` for `bitsize > 32` (the source panics on
the configuration error), otherwise `bitsize` generated hyperplanes, empty
storage and an empty lookup table. -/
def newIndexer (seed : Int) (bitsize vecsize : Nat) : Option Indexer :=
  if 32 < bitsize then none
  else some
    { seed := seed, bitsize := bitsize, vecsize := vecsize,
      hyperplane := (List.range bitsize).map (genVec seed vecsize),
      storage := { pages := [], cap := 0 }, lookup := [] }

/-- Mirrors `Indexer.Add`, with `k` the bucket key the angular hasher
computed for the inserted vector: allocate a head page for a new key, then
`Storage.Add` the item id. -/
def indexerAdd (idx : Indexer) (itemid : Nat) (k : Nat) : Option Indexer :=
  match lookupFind idx.lookup k with
  | some pageno =>
    (storageAdd idx.storage itemid pageno).map (fun r => { idx with storage := r.1 })
  | none =>
    let r := allocatePage idx.storage
    (storageAdd r.1 itemid r.2).map
      (fun r2 => { idx with storage := r2.1, lookup := idx.lookup ++ [(k, r.2)] })

/-- The Hamming distance between two bucket keys as `Search` computes it:
both keys are first rebuilt as `bitsize`-bit vectors by `FromUint32`.
These always have `ceil(bitsize/8)`-byte buffers, so `hamming` is defined
and the `getD` default is never used. -/
def distK (bitsize q k : Nat) : Nat :=
  (BitVector.hamming (BitVector.fromUint32 q bitsize) (BitVector.fromUint32 k bitsize)).getD 0

/-- The items drained from bucket `k` by one iteration of the `Search`
loop: look the key up (a Go map read, 0 when absent — the source notes the
key should exist), walk the page chain, concatenate `page.Gets()`. -/
def bucketOf (st : Storage) (lookup : List (Nat × Nat)) (k : Nat) : Option (List Nat) :=
  (pageChain st (Int.ofNat ((lookupFind lookup k).getD 0))).map
    (fun l => l.flatMap (fun t => (st.pages.getD t { items := [], link := -1 }).items))

/-- The `Search` drain loop over the distance-sorted key list, with the
accumulated items and the `lastdist` variable (initially the Go zero value
0): break when the next key's distance differs from `lastdist` and the
accumulated size has reached the limit, otherwise drain the bucket. -/
def searchGo (st : Storage) (lookup : List (Nat × Nat)) (bitsize q limit : Nat) :
    List Nat → Nat → List Nat → Option (List Nat)
  | [], _, items => some items
  | kk :: rest, lastdist, items =>
    if lastdist ≠ distK bitsize q kk ∧ limit ≤ items.length then some items
    else
      match bucketOf st lookup kk with
      | none => none
      | some bs => searchGo st lookup bitsize q limit rest (distK bitsize q kk) (items ++ bs)

/-- Mirrors `Indexer.Search` given the query's bucket key `q` and the list
`skeys` of lookup keys after sorting — the source enumerates the map in
unspecified order and sorts by Hamming distance from the query key with an
unstable sort, so theorems quantify over every permutation of the lookup
keys that is sorted by distance. -/
def indexerSearch (idx : Indexer) (q limit : Nat) (skeys : List Nat) : Option (List Nat) :=
  searchGo idx.storage idx.lookup idx.bitsize q limit skeys 0 []

/-- The page-position list `Dump` reports for bucket `k` (its
`pagenolist`). -/
def bucketPagenos (idx : Indexer) (k : Nat) : Option (List Nat) :=
  pageChain idx.storage (Int.ofNat ((lookupFind idx.lookup k).getD 0))

/-- The per-page item counts `Dump` accumulates for bucket `k` via
`CountItems`. -/
def bucketCounts (idx : Indexer) (k : Nat) : Option (List Nat) :=
  (bucketPagenos idx k).map
    (fun l => l.map (fun t => (idx.storage.pages.getD t { items := [], link := -1 }).items.length))

/-- The total item count `Dump` reports for bucket `k`. -/
def bucketTotal (idx : Indexer) (k : Nat) : Option Nat :=
  (bucketCounts idx k).map (fun l => l.sum)

/-- The items of bucket `k` as a plain list (empty when the walk faults;
on the states considered it never does). -/
def bucketItems (st : Storage) (lookup : List (Nat × Nat)) (k : Nat) : List Nat :=
  (bucketOf st lookup k).getD []

/-- The number of items stored across all buckets of the index. -/
def totalItems (idx : Indexer) : Nat :=
  ((idx.lookup.map Prod.fst).map (fun k => (bucketItems idx.storage idx.lookup k).length)).sum

/-- Well-formedness of one page at position `i`: the fill count is within
the array capacity and the link is the sentinel or a strictly later, valid
position. -/
def pageOK (len : Nat) (i : Nat) (p : Page) : Prop :=
  p.items.length ≤ 1023 ∧
    (p.link = -1 ∨ ∃ j : Nat, p.link = Int.ofNat j ∧ i < j ∧ j < len)

/-- Well-formedness of the page collection: every page is `pageOK`. -/
def StorageInv (s : Storage) : Prop :=
  ∀ i, i < s.pages.length → pageOK s.pages.length i (s.pages.getD i { items := [], link := -1 })

/-- The index invariant: well-formed pages and every bucket head in
range. -/
def IdxInv (idx : Indexer) : Prop :=
  StorageInv idx.storage ∧ ∀ kv ∈ idx.lookup, kv.2 < idx.storage.pages.length

/-- The states reachable by `NewIndexer` followed by any sequence of
`Add` calls (the bucket key of an added vector is a `bitsize`-bit hash, so
it is below `2 ^ bitsize`). -/
inductive Reach : Indexer → Prop where
  | base : ∀ (seed : Int) (bitsize vecsize : Nat) (idx : Indexer),
      newIndexer seed bitsize vecsize = some idx → Reach idx
  | step : ∀ (idx : Indexer) (itemid k : Nat) (idx2 : Indexer),
      Reach idx → k < 2 ^ idx.bitsize → indexerAdd idx itemid k = some idx2 → Reach idx2


namespace BitVector

lemma and_seven_eq (i : Nat) : i &&& 7 = i % 8 :=
  Nat.and_pow_two_sub_one_eq_mod i 3

lemma shiftRight_three_eq (i : Nat) : i >>> 3 = i / 8 := by
  omega

lemma popcnt_xor (a b : Nat) :
    popcnt (a ^^^ b) = ((List.range 8).filter (fun j => a.testBit j != b.testBit j)).length := by
  unfold popcnt
  congr 1
  apply List.filter_congr
  intro j _
  rw [Nat.testBit_xor]

lemma sum_popcnt_eq (xs ys : List Nat) (c : Nat) :
    ((List.range c).map (fun i => popcnt ((xs.getD i 0) ^^^ (ys.getD i 0)))).sum
      = ((List.range (8 * c)).filter (fun i =>
          (xs.getD (i >>> 3) 0).testBit (i &&& 7)
            != (ys.getD (i >>> 3) 0).testBit (i &&& 7))).length := by
  induction c with
  | zero => simp
  | succ c ih =>
    rw [List.range_succ, List.map_append, List.sum_append,
      show 8 * (c + 1) = 8 * c + 8 from by ring, List.range_add,
      List.filter_append, List.length_append, ih]
    congr 1
    rw [List.map_singleton, List.sum_singleton, popcnt_xor,
      ← List.countP_eq_length_filter, ← List.countP_eq_length_filter, List.countP_map]
    apply List.countP_congr
    intro j hj
    have hj8 : j < 8 := List.mem_range.mp hj
    have hdiv : (8 * c + j) >>> 3 = c := by
      rw [shiftRight_three_eq]; omega
    have hmod : (8 * c + j) &&& 7 = j := by
      rw [and_seven_eq]; omega
    simp only [Function.comp, hdiv, hmod]

lemma hamming_eq_countDiff (x y : BitVector)
    (hx : byteSize x ≤ x.bits.length) (hy : byteSize x ≤ y.bits.length) :
    hamming x y = some (countDiff x y) := by
  unfold hamming countDiff
  rw [if_pos ⟨hx, hy⟩]
  exact congrArg some (sum_popcnt_eq x.bits y.bits (byteSize x))

lemma hamming_self (x : BitVector) (hx : byteSize x ≤ x.bits.length) :
    hamming x x = some 0 := by
  unfold hamming
  rw [if_pos ⟨hx, hx⟩]
  have hsum : ((List.range (byteSize x)).map
      (fun i => popcnt ((x.bits.getD i 0) ^^^ (x.bits.getD i 0)))).sum = 0 := by
    apply List.sum_eq_zero
    intro v hv
    rw [List.mem_map] at hv
    obtain ⟨i, _, rfl⟩ := hv
    rw [Nat.xor_self]
    decide
  rw [hsum]

lemma hamming_comm (x y : BitVector) (h : byteSize x = byteSize y) :
    hamming x y = hamming y x := by
  unfold hamming
  rw [← h]
  by_cases hc : byteSize x ≤ x.bits.length ∧ byteSize x ≤ y.bits.length
  · rw [if_pos hc, if_pos ⟨hc.2, hc.1⟩]
    have hm : (List.range (byteSize x)).map
          (fun i => popcnt ((x.bits.getD i 0) ^^^ (y.bits.getD i 0)))
        = (List.range (byteSize x)).map
          (fun i => popcnt ((y.bits.getD i 0) ^^^ (x.bits.getD i 0))) :=
      List.map_congr_left (fun i _ => by rw [Nat.xor_comm])
    rw [hm]
  · rw [if_neg hc, if_neg (fun h2 => hc ⟨h2.2, h2.1⟩)]

lemma getD_replicate_zero (c i : Nat) : (List.replicate c (0 : Nat)).getD i 0 = 0 := by
  induction c generalizing i with
  | zero => simp
  | succ c ih =>
    cases i with
    | zero => simp [List.replicate]
    | succ i => simp [List.replicate, ih i]

lemma getD_map_range (f : Nat → Nat) (c i : Nat) (h : i < c) :
    ((List.range c).map f).getD i 0 = f i := by
  rw [List.getD_eq_getElem ((List.range c).map f) 0 (by simpa using h)]
  simp

lemma length_filter_range_lt (n m : Nat) :
    ((List.range m).filter (fun i => decide (i < n))).length = min n m := by
  induction m with
  | zero => simp
  | succ m ih =>
    rw [List.range_succ, List.filter_append, List.length_append, ih]
    by_cases h : m < n
    · simp [h]
      omega
    · simp [h]
      omega

lemma allZero_bit (n i : Nat) :
    (((allZero n).bits.getD (i >>> 3) 0).testBit (i &&& 7)) = false := by
  have hb : (allZero n).bits = List.replicate ((n + 7) >>> 3) 0 := rfl
  rw [hb, getD_replicate_zero, Nat.zero_testBit]

lemma allOnes_bit (n i : Nat) (h : i >>> 3 < (n + 7) >>> 3) :
    (((allOnes n).bits.getD (i >>> 3) 0).testBit (i &&& 7)) = decide (i < n) := by
  have hb : (allOnes n).bits
      = (List.range ((n + 7) >>> 3)).map (fun j => 2 ^ (min 8 (n - 8 * j)) - 1) := rfl
  rw [hb, getD_map_range _ _ _ h, Nat.testBit_two_pow_sub_one, and_seven_eq,
    shiftRight_three_eq]
  exact decide_eq_decide.mpr (by omega)

lemma hamming_allOnes_allZero (n : Nat) :
    hamming (allOnes n) (allZero n) = some n := by
  have hx : byteSize (allOnes n) ≤ (allOnes n).bits.length := by
    simp [allOnes, byteSize]
  have hy : byteSize (allOnes n) ≤ (allZero n).bits.length := by
    simp [allOnes, allZero, byteSize]
  rw [hamming_eq_countDiff _ _ hx hy]
  congr 1
  have hbs : byteSize (allOnes n) = (n + 7) >>> 3 := rfl
  unfold countDiff
  rw [← List.countP_eq_length_filter]
  have hcong : ∀ i ∈ List.range (8 * byteSize (allOnes n)),
      ((((allOnes n).bits.getD (i >>> 3) 0).testBit (i &&& 7))
          != (((allZero n).bits.getD (i >>> 3) 0).testBit (i &&& 7))) = true
        ↔ decide (i < n) = true := by
    intro i hi
    have hi8 : i < 8 * ((n + 7) >>> 3) := by
      rw [← hbs]
      exact List.mem_range.mp hi
    have hdivlt : i >>> 3 < (n + 7) >>> 3 := by
      rw [shiftRight_three_eq] at hi8 ⊢
      omega
    rw [allZero_bit, allOnes_bit n i hdivlt, Bool.bne_false]
  rw [List.countP_congr hcong, List.countP_eq_length_filter, length_filter_range_lt]
  have hn : n ≤ 8 * byteSize (allOnes n) := by
    rw [hbs, shiftRight_three_eq]
    omega
  omega

end BitVector

/-- Claim C1: the claim assumes `New(size)` packs a buffer of
`ceil(size/8)` bytes and that `Get(i)` after `Set(i)` is true for every
`i < size`.  The code allocates `size >> 3` bytes — the floor — so for any
size that is not a multiple of 8 the final bits have no byte: already at
size 1, `Set(0)` indexes byte 0 of an empty buffer and panics, while the
same file's `ByteSize()` reports 1 byte.  This evaluates the code at that
failing input. -/
theorem newSet_outOfRange_bug :
    BitVector.set (BitVector.new 1) 0 = none ∧
    (BitVector.new 1).bits.length = 0 ∧
    BitVector.byteSize (BitVector.new 1) = 1 := by
  decide

/-- For sizes that are a multiple of 8 the floor and the ceiling agree and
the claimed contract does hold; a sample of the intended behaviour on an
8-bit vector at bit 3. -/
lemma set_get_works_at_byte_boundary :
    ((BitVector.set (BitVector.new 8) 3).bind (fun bv => BitVector.get bv 3) = some true) ∧
    ((BitVector.set (BitVector.new 8) 3).bind
      (fun bv => (BitVector.unset bv 3).bind (fun bv2 => BitVector.get bv2 3)) = some false) ∧
    (BitVector.get (BitVector.new 8) 3 = some false) := by
  decide

/-- Claim C7: parse→format round trip.  `Scan` accepts any string of '0',
'1' and ' ', but it allocates through `New`, whose buffer is
`floor(count/8)` bytes; for any digit count that is not a multiple of 8
the subsequent `Set` (or the later `String`) panics.  Already the valid
one-character input "1" passes the character scan and then faults, so the
round trip does not exist for it. -/
theorem scan_parse_panic_bug :
    BitVector.parseBits ['1'] = some [true] ∧ BitVector.scan ['1'] = none := by
  decide

/-- On digit counts that are a multiple of 8, the round trip behaves as
the spec describes: scanning "1010 0101" and rendering it reproduces the
digit sequence with the separator reinserted. -/
lemma scan_render_roundtrip_example :
    (BitVector.scan "1010 0101".toList).bind BitVector.render = some "10100101".toList := by
  decide

/-- Claim C6: on well-formed vectors (buffer exactly `ceil(size/8)` bytes,
the spec's data model) of equal byte size, `Hamming` is the byte-wise XOR
population count, which equals the number of differing bit positions; it
is zero on equal arguments, symmetric, and the distance between the
all-set and all-clear vectors of length n is n. -/
theorem hamming_distance_spec :
    (∀ x y : BitVector, x.bits.length = BitVector.byteSize x →
      y.bits.length = BitVector.byteSize y → BitVector.byteSize x = BitVector.byteSize y →
      BitVector.hamming x y = some (BitVector.countDiff x y)) ∧
    (∀ x : BitVector, x.bits.length = BitVector.byteSize x →
      BitVector.hamming x x = some 0) ∧
    (∀ x y : BitVector, BitVector.byteSize x = BitVector.byteSize y →
      BitVector.hamming x y = BitVector.hamming y x) ∧
    (∀ n : Nat, BitVector.hamming (BitVector.allOnes n) (BitVector.allZero n) = some n) := by
  refine ⟨?_, ?_, ?_, BitVector.hamming_allOnes_allZero⟩
  · intro x y hx hy hxy
    exact BitVector.hamming_eq_countDiff x y (le_of_eq hx.symm) (le_of_eq (hxy ▸ hy.symm))
  · intro x hx
    exact BitVector.hamming_self x (le_of_eq hx.symm)
  · intro x y h
    exact BitVector.hamming_comm x y h

/-- Witness for C6 at concrete inputs. -/
theorem hamming_distance_spec_witness :
    BitVector.hamming ⟨8, [3]⟩ ⟨8, [5]⟩ = some (BitVector.countDiff ⟨8, [3]⟩ ⟨8, [5]⟩) ∧
    BitVector.hamming ⟨8, [3]⟩ ⟨8, [3]⟩ = some 0 ∧
    BitVector.hamming ⟨8, [3]⟩ ⟨8, [5]⟩ = BitVector.hamming ⟨8, [5]⟩ ⟨8, [3]⟩ ∧
    BitVector.hamming (BitVector.allOnes 3) (BitVector.allZero 3) = some 3 :=
  ⟨hamming_distance_spec.1 ⟨8, [3]⟩ ⟨8, [5]⟩ (by decide) (by decide) (by decide),
   hamming_distance_spec.2.1 ⟨8, [3]⟩ (by decide),
   hamming_distance_spec.2.2.1 ⟨8, [3]⟩ ⟨8, [5]⟩ (by decide),
   hamming_distance_spec.2.2.2 3⟩

/-- Claim C8 counterexample: the claim says `Hamming` on vectors of
different byte lengths returns the XOR population count over the first
min(byte lengths) bytes without faulting, for every such pair.  At x of 2
bytes and y of 1 byte that would be some 0, over min = 1 byte; the loop
instead runs over x.ByteSize() = 2 bytes and faults indexing y's missing
second byte. -/
theorem hamming_mismatched_cex :
    BitVector.hamming ⟨16, [0, 0]⟩ ⟨8, [0]⟩ = none ∧
    min (BitVector.byteSize ⟨16, [0, 0]⟩) (BitVector.byteSize ⟨8, [0]⟩) = 1 := by
  decide

/-- Claim C8 amended: `Hamming` iterates over the FIRST argument's byte
size, not the shorter one's.  On well-formed buffers it therefore returns
the XOR population count of the first `x.ByteSize()` bytes when x is the
shorter (or equal-length) vector, and faults when x is strictly longer
than y. -/
theorem hamming_mismatched_amended (x y : BitVector)
    (hx : x.bits.length = BitVector.byteSize x) (hy : y.bits.length = BitVector.byteSize y) :
    (BitVector.byteSize x ≤ BitVector.byteSize y →
      BitVector.hamming x y = some (BitVector.countDiff x y)) ∧
    (BitVector.byteSize y < BitVector.byteSize x → BitVector.hamming x y = none) := by
  constructor
  · intro h
    exact BitVector.hamming_eq_countDiff x y (le_of_eq hx.symm) (hy ▸ h)
  · intro h
    unfold BitVector.hamming
    rw [if_neg]
    intro hc
    rw [hy] at hc
    omega

/-- Witness for the amended C8. -/
theorem hamming_mismatched_amended_witness :
    BitVector.hamming ⟨8, [3]⟩ ⟨16, [5, 7]⟩ = some (BitVector.countDiff ⟨8, [3]⟩ ⟨16, [5, 7]⟩) ∧
    BitVector.hamming ⟨16, [5, 7]⟩ ⟨8, [3]⟩ = none :=
  ⟨(hamming_mismatched_amended ⟨8, [3]⟩ ⟨16, [5, 7]⟩ (by decide) (by decide)).1 (by decide),
   (hamming_mismatched_amended ⟨16, [5, 7]⟩ ⟨8, [3]⟩ (by decide) (by decide)).2 (by decide)⟩

lemma listGetD_set_eq {α : Type} (l : List α) (t : Nat) (a d : α) (h : t < l.length) :
    (l.set t a).getD t d = a := by
  rw [List.getD_eq_getElem _ _ (by simpa using h)]
  simp [List.getElem_set]

lemma listGetD_set_ne {α : Type} (l : List α) (t i : Nat) (a d : α) (h : t ≠ i) :
    (l.set t a).getD i d = l.getD i d := by
  by_cases hi : i < l.length
  · rw [List.getD_eq_getElem _ _ (by simpa using hi), List.getD_eq_getElem _ _ hi]
    simp [List.getElem_set, h]
  · have hle : l.length ≤ i := le_of_not_lt hi
    rw [List.getD_eq_default _ _ (by rw [List.length_set]; exact hle),
      List.getD_eq_default _ _ hle]

lemma intOfNat_ne_negOne (j : Nat) : (Int.ofNat j) ≠ -1 := by
  rw [Int.ofNat_eq_natCast]
  omega

lemma intOfNat_nonneg (j : Nat) : (0 : Int) ≤ Int.ofNat j := by
  rw [Int.ofNat_eq_natCast]
  omega

lemma intOfNat_toNat (j : Nat) : (Int.ofNat j).toNat = j :=
  rfl

lemma chainAux_negOne (pages : List Page) (fuel : Nat) : chainAux pages fuel (-1) = some [] := by
  cases fuel <;> simp [chainAux]

lemma pageOK_mono {len len2 i : Nat} {p : Page} (h : pageOK len i p) (hle : len ≤ len2) :
    pageOK len2 i p := by
  obtain ⟨h1, h2⟩ := h
  refine ⟨h1, ?_⟩
  rcases h2 with h2 | ⟨j, hj1, hj2, hj3⟩
  · exact Or.inl h2
  · exact Or.inr ⟨j, hj1, hj2, lt_of_lt_of_le hj3 hle⟩

lemma chainAux_some (pages : List Page)
    (hl : ∀ i, i < pages.length → pageOK pages.length i (pages.getD i { items := [], link := -1 })) :
    ∀ (fuel j : Nat), j < pages.length → pages.length - j ≤ fuel →
      ∃ l, chainAux pages fuel (Int.ofNat j) = some (j :: l) ∧
        (j :: l).Pairwise (· < ·) ∧ (∀ x ∈ j :: l, x < pages.length) := by
  intro fuel
  induction fuel with
  | zero =>
    intro j hj hf
    omega
  | succ fuel ih =>
    intro j hj hf
    have hstep : chainAux pages (fuel + 1) (Int.ofNat j)
        = (chainAux pages fuel ((pages.getD j { items := [], link := -1 }).link)).map
            (j :: ·) := by
      simp only [chainAux]
      rw [if_neg (intOfNat_ne_negOne j),
        if_pos ⟨intOfNat_nonneg j, by rw [intOfNat_toNat]; exact hj⟩, intOfNat_toNat]
    rcases (hl j hj).2 with hterm | ⟨j2, hj2, hlt, hlen⟩
    · refine ⟨[], ?_, by simp, ?_⟩
      · rw [hstep, hterm, chainAux_negOne]
        rfl
      · intro x hx
        have : x = j := by simpa using hx
        omega
    · obtain ⟨l, hcl, hp, hb⟩ := ih j2 hlen (by omega)
      refine ⟨j2 :: l, ?_, ?_, ?_⟩
      · rw [hstep, hj2, hcl]
        rfl
      · rw [List.pairwise_cons]
        refine ⟨?_, hp⟩
        intro x hx
        rcases List.mem_cons.mp hx with rfl | hx2
        · exact hlt
        · have := (List.pairwise_cons.mp hp).1 x hx2
          omega
      · intro x hx
        rcases List.mem_cons.mp hx with rfl | hx2
        · exact hj
        · exact hb x hx2

lemma pageChain_some (s : Storage) (hs : StorageInv s) (j : Nat) (hj : j < s.pages.length) :
    ∃ l, pageChain s (Int.ofNat j) = some (j :: l) ∧
      (j :: l).Pairwise (· < ·) ∧ (∀ x ∈ j :: l, x < s.pages.length) :=
  chainAux_some s.pages hs (s.pages.length + 1) j hj (by omega)

lemma lookupFind_some_mem {lookup : List (Nat × Nat)} {k v : Nat}
    (h : lookupFind lookup k = some v) : (k, v) ∈ lookup := by
  induction lookup with
  | nil => simp [lookupFind] at h
  | cons kv rest ih =>
    rw [show lookupFind (kv :: rest) k = if kv.1 = k then some kv.2 else lookupFind rest k
      from rfl] at h
    by_cases he : kv.1 = k
    · rw [if_pos he] at h
      obtain rfl := Option.some.inj h
      have hkv : kv = (k, kv.2) := by
        rw [← he]
      rw [← hkv]
      exact List.mem_cons_self kv rest
    · rw [if_neg he] at h
      exact List.mem_cons_of_mem _ (ih h)

lemma lookupFind_mem {lookup : List (Nat × Nat)} {k : Nat}
    (hk : k ∈ lookup.map Prod.fst) : ∃ v, lookupFind lookup k = some v := by
  induction lookup with
  | nil => simp at hk
  | cons kv rest ih =>
    rw [show lookupFind (kv :: rest) k = if kv.1 = k then some kv.2 else lookupFind rest k
      from rfl]
    by_cases he : kv.1 = k
    · exact ⟨kv.2, by rw [if_pos he]⟩
    · rw [if_neg he]
      rw [List.map_cons, List.mem_cons] at hk
      rcases hk with hk1 | hk2
    

      · exact absurd hk1.symm he
      · exact ih hk2

lemma storageInv_pages {pages : List Page} {c : Nat}
    (h : ∀ i, i < pages.length → pageOK pages.length i (pages.getD i { items := [], link := -1 })) :
    StorageInv ⟨pages, c⟩ :=
  h

lemma pageOK_list_set {pages : List Page} {len t : Nat} {p : Page}
    (h : ∀ i, i < len → pageOK len i (pages.getD i { items := [], link := -1 }))
    (hpOK : pageOK len t p) :
    ∀ i, i < len → pageOK len i ((pages.set t p).getD i { items := [], link := -1 }) := by
  intro i hi
  by_cases he : t = i
  · subst he
    by_cases ht : t < pages.length
    · rw [listGetD_set_eq _ _ _ _ ht]
      exact hpOK
    · rw [List.set_eq_of_length_le (le_of_not_lt ht)]
      exact h t hi
  · rw [listGetD_set_ne _ _ _ _ _ he]
    exact h i hi

lemma pageOK_append {pages : List Page}
    (h : ∀ i, i < pages.length → pageOK pages.length i (pages.getD i { items := [], link := -1 })) :
    ∀ i, i < pages.length + 1 →
      pageOK (pages.length + 1) i ((pages ++ [({ items := [], link := -1 } : Page)]).getD i { items := [], link := -1 }) := by
  intro i hi
  by_cases hlt : i < pages.length
  · rw [List.getD_append _ _ _ _ hlt]
    exact pageOK_mono (h i hlt) (by omega)
  · have hieq : i = pages.length := by omega
    rw [List.getD_append_right _ _ _ _ (by omega), hieq, Nat.sub_self]
    exact ⟨by simp, Or.inl rfl⟩

lemma storageAdd_some (s : Storage) (itemid pageno : Nat)
    (hs : StorageInv s) (hp : pageno < s.pages.length) :
    ∃ s2 retp, storageAdd s itemid pageno = some (s2, retp) ∧ StorageInv s2 ∧
      s.pages.length ≤ s2.pages.length := by
  obtain ⟨l, hcl, hpw, hb⟩ := pageChain_some s hs pageno hp
  have hne : (pageno :: l) ≠ [] := by simp
  have htail := List.getLast?_eq_getLast (pageno :: l) hne
  set t := (pageno :: l).getLast hne with htdef
  have htlen : t < s.pages.length := hb _ (List.getLast_mem hne)
  have hlen1 : (s.pages ++ [({ items := [], link := -1 } : Page)]).length = s.pages.length + 1 := by
    simp
  by_cases hfull : (s.pages.getD t { items := [], link := -1 }).items.length = 1023
  · by_cases hcap : s.pages.length + 1 ≤ s.cap
    · -- full tail, append in place: the link write lands
      refine ⟨⟨((s.pages ++ [({ items := [], link := -1 } : Page)]).set t
          ({ s.pages.getD t { items := [], link := -1 } with
            link := Int.ofNat s.pages.length } : Page)).set
          s.pages.length ({ items := [itemid], link := -1 } : Page), s.cap⟩, s.pages.length, ?_, ?_, ?_⟩
      · simp only [storageAdd, hcl, Option.some_bind, htail, goAppend, pageAdd]
        rw [if_pos hfull, if_pos hcap]
        simp
      · apply storageInv_pages
        intro i hi
        rw [List.length_set, List.length_set, hlen1] at hi ⊢
        apply pageOK_list_set (t := s.pages.length)
        · apply pageOK_list_set (t := t)
          · exact pageOK_append hs
          · exact ⟨(hs t htlen).1, Or.inr ⟨s.pages.length, rfl, htlen, by omega⟩⟩
        · exact ⟨by simp, Or.inl rfl⟩
        · exact hi
      · simp [List.length_set]
    · -- full tail, append moves the array: the link write is lost
      refine ⟨⟨(s.pages ++ [({ items := [], link := -1 } : Page)]).set
          s.pages.length ({ items := [itemid], link := -1 } : Page),
          if s.cap = 0 then 1 else 2 * s.cap⟩, s.pages.length, ?_, ?_, ?_⟩
      · simp only [storageAdd, hcl, Option.some_bind, htail, goAppend, pageAdd]
        rw [if_pos hfull, if_neg hcap]
        simp
      · apply storageInv_pages
        intro i hi
        rw [List.length_set, hlen1] at hi ⊢
        apply pageOK_list_set (t := s.pages.length)
        · exact pageOK_append hs
        · exact ⟨by simp, Or.inl rfl⟩
        · exact hi
      · simp [List.length_set]
  · -- tail not full: append the item to it
    have hlt : (s.pages.getD t { items := [], link := -1 }).items.length < 1023 :=
      lt_of_le_of_ne (hs t htlen).1 hfull
    refine ⟨⟨s.pages.set t
        ({ s.pages.getD t { items := [], link := -1 } with
          items := (s.pages.getD t { items := [], link := -1 }).items ++ [itemid] } : Page), s.cap⟩,
        t, ?_, ?_, ?_⟩
    · simp only [storageAdd, hcl, Option.some_bind, htail, pageAdd]
      rw [if_neg hfull, if_pos hlt]
      simp
    · apply storageInv_pages
      intro i hi
      rw [List.length_set] at hi ⊢
      apply pageOK_list_set (t := t)
      · exact hs
      · refine ⟨?_, (hs t htlen).2⟩
        simp only [List.length_append, List.length_cons, List.length_nil]
        omega
      · exact hi
    · simp [List.length_set]

lemma allocatePage_fst_pages (s : Storage) :
    (allocatePage s).1.pages = s.pages ++ [({ items := [], link := -1 } : Page)] := by
  unfold allocatePage goAppend
  by_cases h : s.pages.length + 1 ≤ s.cap <;> simp [h]

lemma allocatePage_inv (s : Storage) (hs : StorageInv s) : StorageInv (allocatePage s).1 := by
  intro i hi
  rw [allocatePage_fst_pages s] at hi ⊢
  have h1 : (s.pages ++ [({ items := [], link := -1 } : Page)]).length = s.pages.length + 1 := by
    simp
  rw [h1] at hi ⊢
  exact pageOK_append hs i hi

lemma indexerAdd_some (idx : Indexer) (itemid k : Nat) (hinv : IdxInv idx) :
    ∃ idx2, indexerAdd idx itemid k = some idx2 ∧ IdxInv idx2 := by
  rcases hfind : lookupFind idx.lookup k with _ | pageno
  · have hinv1 : StorageInv (allocatePage idx.storage).1 := allocatePage_inv _ hinv.1
    have hplen : (allocatePage idx.storage).1.pages.length = idx.storage.pages.length + 1 := by
      rw [allocatePage_fst_pages]
      simp
    have hpos : (allocatePage idx.storage).2 = idx.storage.pages.length := rfl
    obtain ⟨s2, retp, hadd, hs2, hmono⟩ :=
      storageAdd_some (allocatePage idx.storage).1 itemid (allocatePage idx.storage).2
        hinv1 (by rw [hpos, hplen]; omega)
    refine ⟨{ idx with
        storage := s2
        lookup := idx.lookup ++ [(k, (allocatePage idx.storage).2)] }, ?_, ?_, ?_⟩
    · simp only [indexerAdd, hfind]
      rw [hadd]
      rfl
    · exact hs2
    · intro kv hkv
      rw [List.mem_append] at hkv
      show kv.2 < s2.pages.length
      rcases hkv with h1 | h2
      · have hx := hinv.2 kv h1
        rw [hplen] at hmono
        omega
      · have hx : kv = (k, (allocatePage idx.storage).2) := by simpa using h2
        have hkv2 : kv.2 = idx.storage.pages.length := by rw [hx]; exact hpos
        rw [hplen] at hmono
        omega
  · have hmem := lookupFind_some_mem hfind
    have hlen : pageno < idx.storage.pages.length := hinv.2 (k, pageno) hmem
    obtain ⟨s2, retp, hadd, hs2, hmono⟩ := storageAdd_some idx.storage itemid pageno hinv.1 hlen
    refine ⟨{ idx with storage := s2 }, ?_, ?_, ?_⟩
    · simp only [indexerAdd, hfind]
      rw [hadd]
      rfl
    · exact hs2
    · intro kv hkv
      exact lt_of_lt_of_le (hinv.2 kv hkv) hmono

lemma reach_inv {idx : Indexer} (h : Reach idx) : IdxInv idx := by
  induction h with
  | base seed bitsize vecsize idx0 heq =>
    unfold newIndexer at heq
    by_cases hb : 32 < bitsize
    · rw [if_pos hb] at heq
      simp at heq
    · rw [if_neg hb] at heq
      obtain rfl := Option.some.inj heq
      constructor
      · intro i hi
        simp at hi
      · intro kv hkv
        simp at hkv
  | step idx itemid k idx2 hr hk hadd ih =>
    obtain ⟨idx3, hadd2, hinv2⟩ := indexerAdd_some idx itemid k ih
    rw [hadd] at hadd2
    obtain rfl := Option.some.inj hadd2
    exact hinv2

lemma bucketOf_isSome (idx : Indexer) (hinv : IdxInv idx) (k : Nat)
    (hk : k ∈ idx.lookup.map Prod.fst) :
    (bucketOf idx.storage idx.lookup k).isSome := by
  obtain ⟨v, hfind⟩ := lookupFind_mem hk
  have hv : v < idx.storage.pages.length := hinv.2 (k, v) (lookupFind_some_mem hfind)
  obtain ⟨l, hc, _, _⟩ := pageChain_some idx.storage hinv.1 v hv
  rw [bucketOf, hfind]
  simp only [Option.getD_some]
  rw [hc]
  simp

/-- The `lastdist` value of the `Search` loop after draining the buckets
of `pre`, starting from the initial value `d0`. -/
def lastDist (bitsize q d0 : Nat) (pre : List Nat) : Nat :=
  match pre.getLast? with
  | none => d0
  | some a => distK bitsize q a

lemma lastDist_nil (bitsize q d0 : Nat) : lastDist bitsize q d0 [] = d0 :=
  rfl

lemma lastDist_cons (bitsize q d0 x : Nat) (l : List Nat) :
    lastDist bitsize q d0 (x :: l) = lastDist bitsize q (distK bitsize q x) l := by
  cases l with
  | nil => rfl
  | cons a as =>
    have h := List.getLast?_eq_getLast (a :: as) (by simp)
    simp [lastDist, List.getLast?_cons_cons, h]

lemma searchGo_spec (st : Storage) (lookup : List (Nat × Nat)) (bitsize q limit : Nat) :
    ∀ (keys : List Nat) (d0 : Nat) (acc : List Nat),
      (∀ k ∈ keys, (bucketOf st lookup k).isSome) →
      ∃ pre post,
        keys = pre ++ post ∧
        searchGo st lookup bitsize q limit keys d0 acc
          = some (acc ++ pre.flatMap (bucketItems st lookup)) ∧
        (∀ pre1 k post1, pre = pre1 ++ k :: post1 →
          ¬(lastDist bitsize q d0 pre1 ≠ distK bitsize q k ∧
            limit ≤ (acc ++ pre1.flatMap (bucketItems st lookup)).length)) ∧
        (post = [] ∨ ∃ k post2, post = k :: post2 ∧
          lastDist bitsize q d0 pre ≠ distK bitsize q k ∧
          limit ≤ (acc ++ pre.flatMap (bucketItems st lookup)).length) := by
  intro keys
  induction keys with
  | nil =>
    intro d0 acc h
    refine ⟨[], [], rfl, by simp [searchGo], ?_, Or.inl rfl⟩
    intro pre1 k post1 hpre
    exact absurd hpre (by simp)
  | cons kk rest ih =>
    intro d0 acc h
    by_cases hstop : d0 ≠ distK bitsize q kk ∧ limit ≤ acc.length
    · refine ⟨[], kk :: rest, rfl, ?_, ?_, Or.inr ⟨kk, rest, rfl, hstop.1, by simpa using hstop.2⟩⟩
      · rw [searchGo, if_pos hstop]
        simp
      · intro pre1 k post1 hpre
        exact absurd hpre (by simp)
    · have hkk : (bucketOf st lookup kk).isSome := h kk (List.mem_cons_self kk rest)
      obtain ⟨bs, hbs⟩ := Option.isSome_iff_exists.mp hkk
      have hbv : bucketItems st lookup kk = bs := by simp [bucketItems, hbs]
      obtain ⟨pre2, post2, heq, hrun, hnostop, hend⟩ :=
        ih (distK bitsize q kk) (acc ++ bs) (fun k2 hk2 => h k2 (List.mem_cons_of_mem _ hk2))
      refine ⟨kk :: pre2, post2, by rw [List.cons_append, heq], ?_, ?_, ?_⟩
      · rw [searchGo, if_neg hstop, hbs]
        show searchGo st lookup bitsize q limit rest (distK bitsize q kk) (acc ++ bs)
          = some (acc ++ (kk :: pre2).flatMap (bucketItems st lookup))
        rw [hrun, List.flatMap_cons, hbv, List.append_assoc]
      · intro pre1 k post1 hpre
        cases pre1 with
        | nil =>
          rw [List.nil_append] at hpre
          obtain ⟨h1, h2⟩ := List.cons.inj hpre
          subst h1
          intro hc
          apply hstop
          refine ⟨?_, ?_⟩
          · have := hc.1
            rw [lastDist_nil] at this
            exact this
          · have := hc.2
            simpa using this
        | cons a pre1x =>
          rw [List.cons_append] at hpre
          obtain ⟨h1, hpre2⟩ := List.cons.inj hpre
          subst h1
          intro hc
          apply hnostop pre1x k post1 hpre2
          refine ⟨?_, ?_⟩
          · have := hc.1
            rw [lastDist_cons] at this
            exact this
          · have := hc.2
            rw [List.flatMap_cons, hbv, ← List.append_assoc] at this
            exact this
      · rcases hend with h0 | ⟨k, p2, rfl, hd, hl⟩
        · exact Or.inl h0
        · refine Or.inr ⟨k, p2, rfl, ?_, ?_⟩
          · rw [lastDist_cons]
            exact hd
          · rw [List.flatMap_cons, hbv, ← List.append_assoc]
            exact hl

lemma indexerSearch_spec (idx : Indexer) (q limit : Nat) (skeys : List Nat)
    (hdef : ∀ k ∈ skeys, (bucketOf idx.storage idx.lookup k).isSome) :
    ∃ pre post,
      skeys = pre ++ post ∧
      indexerSearch idx q limit skeys
        = some (pre.flatMap (bucketItems idx.storage idx.lookup)) ∧
      (∀ pre1 k post1, pre = pre1 ++ k :: post1 →
        ¬(lastDist idx.bitsize q 0 pre1 ≠ distK idx.bitsize q k ∧
          limit ≤ (pre1.flatMap (bucketItems idx.storage idx.lookup)).length)) ∧
      (post = [] ∨ ∃ k post2, post = k :: post2 ∧
        lastDist idx.bitsize q 0 pre ≠ distK idx.bitsize q k ∧
        limit ≤ (pre.flatMap (bucketItems idx.storage idx.lookup)).length) := by
  obtain ⟨pre, post, h1, h2, h3, h4⟩ :=
    searchGo_spec idx.storage idx.lookup idx.bitsize q limit skeys 0 [] hdef
  refine ⟨pre, post, h1, ?_, ?_, ?_⟩
  · rw [indexerSearch, h2, List.nil_append]
  · intro pre1 k post1 hp
    have hx := h3 pre1 k post1 hp
    simpa using hx
  · rcases h4 with h0 | ⟨k, p2, hp, hd, hl⟩
    · exact Or.inl h0
    · exact Or.inr ⟨k, p2, hp, hd, by simpa using hl⟩

lemma pairwise_le_getLast {f : Nat → Nat} :
    ∀ (l : List Nat), l.Pairwise (fun a b => f a ≤ f b) → (hne : l ≠ []) →
      ∀ a ∈ l, f a ≤ f (l.getLast hne) := by
  intro l
  induction l with
  | nil =>
    intro _ hne
    exact absurd rfl hne
  | cons x xs ih =>
    intro hp hne a ha
    cases xs with
    | nil =>
      have hax : a = x := by simpa using ha
      subst hax
      rw [List.getLast_singleton]
    | cons y ys =>
      have hlast : (x :: y :: ys).getLast hne = (y :: ys).getLast (by simp) := by
        simp [List.getLast_cons]
      rcases List.mem_cons.mp ha with rfl | hmem
      · rw [hlast]
        exact (List.pairwise_cons.mp hp).1 _ (List.getLast_mem _)
      · rw [hlast]
        exact ih (List.pairwise_cons.mp hp).2 (by simp) a hmem

/-- Claim C2: for every reachable index state, `Search` over any
distance-sorted enumeration of the bucket keys drains whole buckets in
the sorted (ascending-distance) order and stops exactly by the code's
rule — at the first key whose distance differs from the loop's `lastdist`
value (initially the Go zero value 0, thereafter the distance of the last
fully drained bucket) while at least `limit` items are already collected.
Hence the result is the concatenation of complete buckets — never part
of one — and every undrained key lies at a strictly larger distance than
every drained one, so tie tiers are never split, though the result may
exceed `limit`. -/
theorem search_tier_characterization (idx : Indexer) (q limit : Nat) (skeys : List Nat)
    (hre : Reach idx)
    (hperm : skeys.Perm (idx.lookup.map Prod.fst))
    (hsort : skeys.Pairwise (fun a b => distK idx.bitsize q a ≤ distK idx.bitsize q b)) :
    ∃ pre post res,
      skeys = pre ++ post ∧
      indexerSearch idx q limit skeys = some res ∧
      res = pre.flatMap (bucketItems idx.storage idx.lookup) ∧
      (∀ pre1 k post1, pre = pre1 ++ k :: post1 →
        ¬(lastDist idx.bitsize q 0 pre1 ≠ distK idx.bitsize q k ∧
          limit ≤ (pre1.flatMap (bucketItems idx.storage idx.lookup)).length)) ∧
      (post = [] ∨ ∃ k post2, post = k :: post2 ∧
        lastDist idx.bitsize q 0 pre ≠ distK idx.bitsize q k ∧ limit ≤ res.length) ∧
      (∀ a ∈ pre, ∀ b ∈ post, distK idx.bitsize q a < distK idx.bitsize q b) := by
  have hdef : ∀ k ∈ skeys, (bucketOf idx.storage idx.lookup k).isSome :=
    fun k hk => bucketOf_isSome idx (reach_inv hre) k (hperm.subset hk)
  obtain ⟨pre, post, h1, h2, h3, h4⟩ := indexerSearch_spec idx q limit skeys hdef
  refine ⟨pre, post, _, h1, h2, rfl, h3, h4, ?_⟩
  intro a ha b hb
  rcases h4 with h0 | ⟨k, p2, hp, hd, hl⟩
  · rw [h0] at hb
    simp at hb
  · have hsort2 := h1 ▸ hsort
    rw [List.pairwise_append] at hsort2
    obtain ⟨hpre_pw, hpost_pw, hcross⟩ := hsort2
    have hpre_ne : pre ≠ [] := by
      intro hh
      rw [hh] at ha
      simp at ha
    have hlast : lastDist idx.bitsize q 0 pre = distK idx.bitsize q (pre.getLast hpre_ne) := by
      unfold lastDist
      rw [List.getLast?_eq_getLast pre hpre_ne]
    have ha_le : distK idx.bitsize q a ≤ distK idx.bitsize q (pre.getLast hpre_ne) :=
      pairwise_le_getLast pre hpre_pw hpre_ne a ha
    have hlast_k : distK idx.bitsize q (pre.getLast hpre_ne) ≤ distK idx.bitsize q k := by
      apply hcross
      · exact List.getLast_mem hpre_ne
      · rw [hp]
        exact List.mem_cons_self k p2
    have hk_b : distK idx.bitsize q k ≤ distK idx.bitsize q b := by
      rw [hp] at hb hpost_pw
      rcases List.mem_cons.mp hb with rfl | hmem
      · exact le_refl _
      · exact (List.pairwise_cons.mp hpost_pw).1 b hmem
    rw [hlast] at hd
    omega

/-- The index state reached by constructing with seed 0, bitsize 4,
vecsize 2 (before any insertion). -/
def exampleBase : Indexer :=
  { seed := 0, bitsize := 4, vecsize := 2,
    hyperplane := (List.range 4).map (genVec 0 2),
    storage := { pages := [], cap := 0 }, lookup := [] }

/-- The state after additionally inserting item 42 under bucket key 3. -/
def exampleIdx : Indexer :=
  { seed := 0, bitsize := 4, vecsize := 2,
    hyperplane := (List.range 4).map (genVec 0 2),
    storage := { pages := [({ items := [42], link := -1 } : Page)], cap := 1 },
    lookup := [(3, 0)] }

lemma exampleBase_new : newIndexer 0 4 2 = some exampleBase := by
  decide

lemma exampleIdx_add : indexerAdd exampleBase 42 3 = some exampleIdx := by
  decide

lemma exampleIdx_reach : Reach exampleIdx :=
  Reach.step exampleBase 42 3 exampleIdx
    (Reach.base 0 4 2 exampleBase exampleBase_new) (by decide) exampleIdx_add

lemma exampleIdx_keys : exampleIdx.lookup.map Prod.fst = [3] :=
  rfl

/-- Witness for C2 on a concrete one-bucket index. -/
theorem search_tier_characterization_witness :
    ∃ pre post res, ([3] : List Nat) = pre ++ post ∧
      indexerSearch exampleIdx 3 1 [3] = some res ∧
      res = pre.flatMap (bucketItems exampleIdx.storage exampleIdx.lookup) := by
  obtain ⟨pre, post, res, h1, h2, h3, _⟩ :=
    search_tier_characterization exampleIdx 3 1 [3] exampleIdx_reach
      (by rw [exampleIdx_keys]) (by simp)
  exact ⟨pre, post, res, h1, h2, h3⟩

/-- Claim C5: for every reachable index state and distance-sorted key
enumeration, `Search` succeeds; it returns at least `limit` items when at
least `limit` items are stored across the buckets, returns exactly all
stored items when fewer than `limit` are stored, and returns the empty
sequence on an empty index regardless of `limit`. -/
theorem search_limit_guarantee (idx : Indexer) (q limit : Nat) (skeys : List Nat)
    (hre : Reach idx)
    (hperm : skeys.Perm (idx.lookup.map Prod.fst))
    (hsort : skeys.Pairwise (fun a b => distK idx.bitsize q a ≤ distK idx.bitsize q b)) :
    ∃ res, indexerSearch idx q limit skeys = some res ∧
      (limit ≤ totalItems idx → limit ≤ res.length) ∧
      (totalItems idx < limit → res.length = totalItems idx) ∧
      (idx.lookup = [] → res = []) := by
  have hdef : ∀ k ∈ skeys, (bucketOf idx.storage idx.lookup k).isSome :=
    fun k hk => bucketOf_isSome idx (reach_inv hre) k (hperm.subset hk)
  obtain ⟨pre, post, h1, h2, h3, h4⟩ := indexerSearch_spec idx q limit skeys hdef
  have htot : totalItems idx
      = (skeys.map (fun k => (bucketItems idx.storage idx.lookup k).length)).sum := by
    unfold totalItems
    exact ((hperm.map (fun k => (bucketItems idx.storage idx.lookup k).length)).sum_eq).symm
  have hlen : (pre.flatMap (bucketItems idx.storage idx.lookup)).length
      = (pre.map (fun k => (bucketItems idx.storage idx.lookup k).length)).sum := by
    rw [List.length_flatMap]
    rfl
  have hsplit : (skeys.map (fun k => (bucketItems idx.storage idx.lookup k).length)).sum
      = (pre.map (fun k => (bucketItems idx.storage idx.lookup k).length)).sum
        + (post.map (fun k => (bucketItems idx.storage idx.lookup k).length)).sum := by
    rw [h1, List.map_append, List.sum_append]
  refine ⟨_, h2, ?_, ?_, ?_⟩
  · intro hge
    rcases h4 with h0 | ⟨k, p2, hp, hd, hl⟩
    · rw [h0, List.append_nil] at h1
      rw [hlen, ← h1]
      rw [htot] at hge
      exact hge
    · exact hl
  · intro hlt
    rcases h4 with h0 | ⟨k, p2, hp, hd, hl⟩
    · rw [h0, List.append_nil] at h1
      rw [hlen, ← h1, htot]
    · rw [htot, hsplit] at hlt
      rw [hlen] at hl
      omega
  · intro hempty
    have hkeys : idx.lookup.map Prod.fst = [] := by
      rw [hempty]
      rfl
    have hskeys : skeys = [] := by
      rw [hkeys] at hperm
      exact hperm.eq_nil
    rw [hskeys] at h1
    have hpre : pre = [] := (List.append_eq_nil.mp h1.symm).1
    rw [hpre]
    rfl

/-- Witness for C5 on the concrete one-bucket index: one item is stored
and the limit 2 exceeds it, so the search returns everything. -/
theorem search_limit_guarantee_witness :
    ∃ res, indexerSearch exampleIdx 3 2 [3] = some res ∧ res.length = totalItems exampleIdx := by
  obtain ⟨res, h1, h2, h3, h4⟩ :=
    search_limit_guarantee exampleIdx 3 2 [3] exampleIdx_reach
      (by rw [exampleIdx_keys]) (by simp)
  exact ⟨res, h1, h3 (by decide)⟩

/-- Claim C10: in every state reachable by `NewIndexer` and `Add` calls,
every page link is the -1 sentinel or a strictly later valid position,
every lookup head starts a strictly increasing (hence finite and acyclic)
chain on which the iterator's out-of-bounds panic branch never fires, and
the traversals of `Add`, `Search` and `Dump` all terminate without
faulting. -/
theorem reachable_chain_invariant (idx : Indexer) (hre : Reach idx) :
    (∀ i, i < idx.storage.pages.length →
      ((idx.storage.pages.getD i { items := [], link := -1 }).link = -1 ∨
        ∃ j : Nat, (idx.storage.pages.getD i { items := [], link := -1 }).link = Int.ofNat j ∧
          i < j ∧ j < idx.storage.pages.length)) ∧
    (∀ kv ∈ idx.lookup, kv.2 < idx.storage.pages.length ∧
      ∃ l, pageChain idx.storage (Int.ofNat kv.2) = some (kv.2 :: l) ∧
        (kv.2 :: l).Pairwise (· < ·)) ∧
    (∀ itemid k : Nat, (indexerAdd idx itemid k).isSome) ∧
    (∀ k ∈ idx.lookup.map Prod.fst, (bucketOf idx.storage idx.lookup k).isSome) := by
  have hinv := reach_inv hre
  refine ⟨?_, ?_, ?_, ?_⟩
  · intro i hi
    exact (hinv.1 i hi).2
  · intro kv hkv
    have hlen := hinv.2 kv hkv
    obtain ⟨l, hc, hp, _⟩ := pageChain_some idx.storage hinv.1 kv.2 hlen
    exact ⟨hlen, l, hc, hp⟩
  · intro itemid k
    obtain ⟨idx2, heq, _⟩ := indexerAdd_some idx itemid k hinv
    rw [heq]
    rfl
  · intro k hk
    exact bucketOf_isSome idx hinv k hk

/-- Witness for C10 at the concrete one-bucket index. -/
theorem reachable_chain_invariant_witness :
    (indexerAdd exampleIdx 7 5).isSome ∧
    (bucketOf exampleIdx.storage exampleIdx.lookup 3).isSome :=
  ⟨(reachable_chain_invariant exampleIdx exampleIdx_reach).2.2.1 7 5,
   (reachable_chain_invariant exampleIdx exampleIdx_reach).2.2.2 3 (by decide)⟩

/-- n successive `Add` calls (item ids 0,1,2,...) under the single bucket
key 3, starting from the index constructed with seed 0, bitsize 4,
vecsize 2 — the spec's concrete page-overflow scenario. -/
def addNK (k : Nat) : Nat → Option Indexer
  | 0 => newIndexer 0 4 2
  | n + 1 => (addNK k n).bind (fun idx => indexerAdd idx n k)

/-- The single-bucket state while the first page is still filling: one
page holding the n inserted ids. -/
def singleIdx (n : Nat) : Indexer :=
  { seed := 0, bitsize := 4, vecsize := 2,
    hyperplane := (List.range 4).map (genVec 0 2),
    storage := { pages := [({ items := List.range n, link := -1 } : Page)], cap := 1 },
    lookup := [(3, 0)] }

lemma storageAdd_notfull_step (xs : List Nat) (itemid : Nat) (hm : xs.length < 1023) :
    storageAdd ⟨[({ items := xs, link := -1 } : Page)], 1⟩ itemid 0
      = some (⟨[({ items := xs ++ [itemid], link := -1 } : Page)], 1⟩, 0) := by
  have hchain : pageChain (⟨[({ items := xs, link := -1 } : Page)], 1⟩ : Storage) (Int.ofNat 0)
      = some [0] := rfl
  unfold storageAdd
  rw [hchain, Option.some_bind]
  rw [show ([0] : List Nat).getLast? = some 0 from rfl, Option.some_bind]
  simp [pageAdd, Nat.ne_of_lt hm, hm]

lemma addNK_le (n : Nat) (h1 : 1 ≤ n) (h2 : n ≤ 1023) : addNK 3 n = some (singleIdx n) := by
  induction n with
  | zero => omega
  | succ m ih =>
    by_cases hm : m = 0
    · subst hm
      decide
    · rw [addNK, ih (by omega) (by omega), Option.some_bind]
      show indexerAdd (singleIdx m) m 3 = some (singleIdx (m + 1))
      unfold indexerAdd singleIdx
      simp only [show lookupFind [(3, 0)] 3 = some 0 from rfl]
      rw [storageAdd_notfull_step (List.range m) m (by simp; omega)]
      simp [List.range_succ]

/-- The state after 1024 inserts: when the 1024th insert found page 0
full, `allocatePage`'s append had to move the backing array (length 1 =
capacity 1), so the `page.Link(1)` write went to the stale array — page 0
still ends the chain and the freshly allocated page 1 holding item 1023
is orphaned. -/
def singleIdxA : Indexer :=
  { seed := 0, bitsize := 4, vecsize := 2,
    hyperplane := (List.range 4).map (genVec 0 2),
    storage := { pages := [({ items := List.range 1023, link := -1 } : Page),
      ({ items := [1023], link := -1 } : Page)], cap := 2 },
    lookup := [(3, 0)] }

/-- The state after 1025 inserts: the same happens again (length 2 =
capacity 2), orphaning page 2 with item 1024. -/
def singleIdxB : Indexer :=
  { seed := 0, bitsize := 4, vecsize := 2,
    hyperplane := (List.range 4).map (genVec 0 2),
    storage := { pages := [({ items := List.range 1023, link := -1 } : Page),
      ({ items := [1023], link := -1 } : Page),
      ({ items := [1024], link := -1 } : Page)], cap := 4 },
    lookup := [(3, 0)] }

lemma storageAdd_full_step1 :
    storageAdd ⟨[({ items := List.range 1023, link := -1 } : Page)], 1⟩ 1023 0
      = some (⟨[({ items := List.range 1023, link := -1 } : Page),
          ({ items := [1023], link := -1 } : Page)], 2⟩, 1) := by
  have hchain : pageChain (⟨[({ items := List.range 1023, link := -1 } : Page)], 1⟩ : Storage)
      (Int.ofNat 0) = some [0] := rfl
  unfold storageAdd
  rw [hchain, Option.some_bind]
  rw [show ([0] : List Nat).getLast? = some 0 from rfl, Option.some_bind]
  simp [pageAdd, goAppend]

lemma storageAdd_full_step2 :
    storageAdd ⟨[({ items := List.range 1023, link := -1 } : Page),
        ({ items := [1023], link := -1 } : Page)], 2⟩ 1024 0
      = some (⟨[({ items := List.range 1023, link := -1 } : Page),
          ({ items := [1023], link := -1 } : Page),
          ({ items := [1024], link := -1 } : Page)], 4⟩, 2) := by
  have hchain : pageChain (⟨[({ items := List.range 1023, link := -1 } : Page),
      ({ items := [1023], link := -1 } : Page)], 2⟩ : Storage) (Int.ofNat 0) = some [0] := rfl
  unfold storageAdd
  rw [hchain, Option.some_bind]
  rw [show ([0] : List Nat).getLast? = some 0 from rfl, Option.some_bind]
  simp [pageAdd, goAppend]

lemma addNK_1024 : addNK 3 1024 = some singleIdxA := by
  show (addNK 3 1023).bind (fun idx => indexerAdd idx 1023 3) = some singleIdxA
  rw [addNK_le 1023 (by omega) (by omega), Option.some_bind]
  unfold indexerAdd singleIdx singleIdxA
  simp only [show lookupFind [(3, 0)] 3 = some 0 from rfl]
  rw [storageAdd_full_step1]
  rfl

lemma addNK_1025 : addNK 3 1025 = some singleIdxB := by
  show (addNK 3 1024).bind (fun idx => indexerAdd idx 1024 3) = some singleIdxB
  rw [addNK_1024, Option.some_bind]
  unfold indexerAdd singleIdxA singleIdxB
  simp only [show lookupFind [(3, 0)] 3 = some 0 from rfl]
  rw [storageAdd_full_step2]
  rfl

set_option maxRecDepth 100000 in
/-- Claim C4, evaluated at the claim's own scenario (bitsize 4, 1025
inserts into one bucket).  The claim expects a second page LINKED into
the bucket's chain, `Dump` reporting 2 pages holding 1023 and 2 items and
a total of 1025.  In fact `Storage.Add` captures the `*Page` pointer to
the full tail before `allocatePage` appends; the append moves the backing
array (its length has reached its capacity), so `page.Link` writes to the
dead array: the chain keeps ending at page 0, `Dump` reports one page and
1023 items, and items 1023 and 1024 sit in orphaned pages outside every
chain. -/
theorem page_overflow_dump_bug :
    ∃ idx, addNK 3 1025 = some idx ∧
      bucketPagenos idx 3 = some [0] ∧
      bucketCounts idx 3 = some [1023] ∧
      bucketTotal idx 3 = some 1023 ∧
      idx.storage.pages.map (fun p => p.items.length) = [1023, 1, 1] := by
  refine ⟨singleIdxB, addNK_1025, ?_, ?_, ?_, ?_⟩
  · rfl
  · decide
  · decide
  · decide

set_option maxRecDepth 100000 in
/-- Claim C3, evaluated where it breaks: after 1024 inserts under bucket
key 3, item id 1023 (the 1024th insert) went into page 1, which was
orphaned because the append inside `allocatePage` moved the backing array
and the chain-linking write hit the stale pointer; a `Search` under the
very same bucket key with limit 1 therefore returns the 1023 chained
items and not item 1023, even though the distance-0 bucket is ranked
first and fully drained. -/
theorem add_search_lost_item_bug :
    ∃ idx res, addNK 3 1024 = some idx ∧
      indexerSearch idx 3 1 [3] = some res ∧
      res = List.range 1023 ∧
      (1023 : Nat) ∉ res ∧
      (idx.storage.pages.getD 1 { items := [], link := -1 }).items = [1023] := by
  refine ⟨singleIdxA, List.range 1023, addNK_1024, ?_, rfl, by simp, rfl⟩
  rfl

/-- Claim C9: construction fails (the source panics) exactly when
`bitsize > 32`; otherwise it yields an index with `bitsize` hyperplanes
of dimension `vecsize`, empty storage and an empty lookup table. -/
theorem newIndexer_config :
    (∀ (seed : Int) (bitsize vecsize : Nat), 32 < bitsize →
      newIndexer seed bitsize vecsize = none) ∧
    (∀ (seed : Int) (bitsize vecsize : Nat), bitsize ≤ 32 →
      ∃ idx, newIndexer seed bitsize vecsize = some idx ∧
        idx.seed = seed ∧ idx.bitsize = bitsize ∧ idx.vecsize = vecsize ∧
        idx.hyperplane.length = bitsize ∧
        (∀ h ∈ idx.hyperplane, h.length = vecsize) ∧
        idx.storage.pages = [] ∧ idx.lookup = []) := by
  constructor
  · intro seed bitsize vecsize hb
    rw [newIndexer, if_pos hb]
  · intro seed bitsize vecsize hb
    refine ⟨_, by rw [newIndexer, if_neg (by omega)], rfl, rfl, rfl, by simp, ?_, rfl, rfl⟩
    intro h hh
    rw [List.mem_map] at hh
    obtain ⟨i, _, rfl⟩ := hh
    simp [genVec]

/-- Witness for C9 at bitsize 33 (rejected) and bitsize 4 (accepted). -/
theorem newIndexer_config_witness :
    newIndexer 0 33 2 = none ∧
    (∃ idx, newIndexer 0 4 2 = some idx ∧ idx.hyperplane.length = 4 ∧
      idx.storage.pages = [] ∧ idx.lookup = []) := by
  constructor
  · exact newIndexer_config.1 0 33 2 (by omega)
  · obtain ⟨idx, h1, _, _, _, h5, _, h7, h8⟩ := newIndexer_config.2 0 4 2 (by omega)
    exact ⟨idx, h1, h5, h7, h8⟩
